import Mathlib

/-!
Shallow embedding of the core of `splay` (locate.go): the fuzzy matcher
(`clean`, `match`), the selector (`find`), the sequencers (`doPerAlbum`,
`doPerSong` and the Fisher–Yates shuffle), and the locators
(`LocateArtist`, `LocateAlbum`, `artist.Play`, `album.Play`).

Go strings are modelled as lists of runes (`List Char`); Go `len` on a
string is the UTF-8 byte length, modelled by `utf8Len` (these agree with
rune counts on ASCII data).  I/O collaborators (directory listings, the
random source, the external player) are passed in as explicit arguments;
the per-entry callbacks of `doPerAlbum`/`doPerSong` are abstracted by
returning the ordered list of entries the callback is applied to.
-/

/-- A directory entry as consumed by splay: `os.FileInfo` restricted to the
two members the program uses, `Name()` and `IsDir()`. -/
structure FileInfo where
  name : List Char
  isDir : Bool
deriving DecidableEq

instance : Inhabited FileInfo := ⟨⟨[], false⟩⟩

deriving instance DecidableEq for Except

/-- Go `len` on a string: total UTF-8 byte size of its runes. -/
def utf8Len (s : List Char) : Nat := (s.map Char.utf8Size).sum

/-- The rune test in `clean`'s loop:
`unicode.IsLetter(r) || unicode.IsDigit(r) || unicode.IsSpace(r)`. -/
def isKept (c : Char) : Bool := c.isAlpha || c.isDigit || c.isWhitespace

/-- Embeds `clean` from locate.go: copies `s` rune by rune into a buffer, keeping
only letters, digits and whitespace. -/
def clean : List Char → List Char
  | [] => []
  | c :: rest => if isKept c then c :: clean rest else clean rest

/-- Go `strings.ToLower`, rune by rune. -/
def toLowerStr (s : List Char) : List Char := s.map Char.toLower

/-- Go `strings.Contains s pat`: `pat` occurs as a contiguous substring of
`s` (always true for an empty `pat`). -/
def containsSub : List Char → List Char → Bool
  | [], pat => pat.isEmpty
  | c :: t, pat => pat.isPrefixOf (c :: t) || containsSub t pat

/-- The normalization both arguments of `match` undergo:
`clean(strings.ToLower(s))`. -/
def normalizeStr (s : List Char) : List Char := clean (toLowerStr s)

/-- Embeds `match` from locate.go (renamed: `match` is a Lean keyword).  Returns a
non-negative score iff the normalized candidate contains the normalized
pattern, `-1` otherwise; the score is the difference of the normalized
byte lengths. -/
def matchScore (pattern s : List Char) : Int :=
  let s' := normalizeStr s
  let p' := normalizeStr pattern
  if containsSub s' p' then
    let d : Int := (utf8Len s' : Int) - (utf8Len p' : Int)
    if d < 0 then -d else d
  else -1

/-- The scan loop of `find`: `i` is the index of the head of the remaining
list, `best` and `loc` the accumulator state (`best := 9999; loc := -1`
initially in `find`). -/
def findLoop (pattern : List Char) : List FileInfo → Nat → Int → Int → Int
  | [], _, _, loc => loc
  | f :: rest, i, best, loc =>
    let m := matchScore pattern f.name
    if m < 0 then findLoop pattern rest (i + 1) best loc
    else if m < best then findLoop pattern rest (i + 1) m (i : Int)
    else findLoop pattern rest (i + 1) best loc

/-- Embeds `find` from locate.go: `0` for an empty pattern, otherwise the last
index at which the running `best` (initially `9999`) strictly improved,
or `-1` if it never did. -/
def find (fi : List FileInfo) (pattern : List Char) : Int :=
  if pattern.isEmpty then 0
  else findLoop pattern fi 0 9999 (-1)

/-- Embeds `intnRange` from locate.go: `r.Intn(e-b) + b`.  `Intn(n)` yields a
value in `[0, n)`; the random draw is modelled as an arbitrary natural `r`
reduced `mod (e - b)`. -/
def intnRange (r b e : Nat) : Nat := r % (e - b) + b

/-- The parallel assignment `albums[i], albums[n] = albums[n], albums[i]`:
both reads happen before both writes. -/
def swapAt (l : List FileInfo) (i n : Nat) : List FileInfo :=
  (l.set i (l.getD n default)).set n (l.getD i default)

/-- The shuffle loop of `doPerAlbum`: `for i := range albums { n :=
intnRange(r, i, len(albums)); swap }`.  `fuel` counts the remaining
iterations (`len - i`), making the recursion structural. -/
def shuffleAux (r : Nat → Nat) (len : Nat) : Nat → Nat → List FileInfo → List FileInfo
  | 0, _, l => l
  | fuel + 1, i, l =>
    if i < len then shuffleAux r len fuel (i + 1) (swapAt l i (intnRange (r i) i len))
    else l

/-- The whole Fisher–Yates pass over a list, with `r i` the random draw
consumed at iteration `i`. -/
def shuffle (r : Nat → Nat) (l : List FileInfo) : List FileInfo :=
  shuffleAux r l.length l.length 0 l

/-- Left rotation at `k`: `append(l[k:len(l)], l[0:k]...)`. -/
def rotateAt (l : List FileInfo) (k : Nat) : List FileInfo :=
  l.drop k ++ l.take k

/-- Go `%q` on a pattern (no escaping needed for the plain text patterns
involved): surrounding double quotes. -/
def quoted (s : List Char) : List Char := '"' :: (s ++ ['"'])

/-- The message text of `doPerAlbum`'s failure:
`"I failed to find an album matching this pattern: %q"`. -/
def albumErrMsg (start : List Char) : List Char :=
  "I failed to find an album matching this pattern: ".toList ++ quoted start

/-- The message text of `doPerSong`'s failure:
`"I failed to find a song matching this pattern: %q"`. -/
def songErrMsg (start : List Char) : List Char :=
  "I failed to find a song matching this pattern: ".toList ++ quoted start

/-- Embeds `artist.doPerAlbum` with the directory listing (`subDirs`) passed in as
`albums` and the callback abstracted: the ok value is the ordered list of
album entries handed to the callback.  Shuffles, selects with `find`,
rotates; a negative selector result aborts with the error message. -/
def doPerAlbum (r : Nat → Nat) (albums : List FileInfo) (start : List Char) :
    Except (List Char) (List FileInfo) :=
  let sh := shuffle r albums
  let s := find sh start
  if s < 0 then Except.error (albumErrMsg start)
  else Except.ok (sh.drop s.toNat ++ sh.take s.toNat)

/-- Embeds `album.doPerSong` with the listing (`subFiles`) passed in as `songs`
and the callback abstracted: the ok value is the ordered list of song
entries handed to the callback (`songs[s:]`). -/
def doPerSong (songs : List FileInfo) (start : List Char) :
    Except (List Char) (List FileInfo) :=
  let s := find songs start
  if s < 0 then Except.error (songErrMsg start)
  else Except.ok (songs.drop s.toNat)

/-- `filepath.Join` of a directory and a child name. -/
def joinPath (a b : List Char) : List Char := a ++ '/' :: b

/-- The `artist` struct of locate.go: its only field is the path. -/
structure artistM where
  path : List Char
deriving DecidableEq

/-- The `album` struct of locate.go: path plus the `showName` display
flag. -/
structure albumM where
  path : List Char
  showName : Bool
deriving DecidableEq

/-- Embeds `LocateArtist` with its collaborators as inputs: `mloc` the music
root, `artists` the outcome of `subDirs(mloc)` (an I/O error or a
listing).  A listing error propagates; a failed `find` yields ok `none`
(nil Music, nil error); otherwise the matched artist is wrapped. -/
def LocateArtist (mloc : List Char) (artists : Except (List Char) (List FileInfo))
    (pattern : List Char) : Except (List Char) (Option artistM) :=
  match artists with
  | Except.error e => Except.error e
  | Except.ok as =>
    let i := find as pattern
    if i < 0 then Except.ok none
    else Except.ok (some ⟨joinPath mloc ((as.getD i.toNat default).name)⟩)

/-- Embeds `LocateAlbum` with the directory tree passed in: `tree` pairs each
artist entry with its album listing.  Albums are flattened artist by
artist, `find` runs once over the flattened list, and the winner is
wrapped via `newAlbum(allnames[i], false)`. -/
def LocateAlbum (mloc : List Char) (tree : List (FileInfo × List FileInfo))
    (pattern : List Char) : Option albumM :=
  let allalbums := (tree.map Prod.snd).flatten
  let allnames :=
    (tree.map (fun a => a.2.map (fun al => joinPath (joinPath mloc a.1.name) al.name))).flatten
  let i := find allalbums pattern
  if i < 0 then none
  else some ⟨allnames.getD i.toNat [], false⟩

/-- Embeds `artist.Play`: runs `doPerAlbum` and, per album entry, constructs
`newAlbum(filepath.Join(a.path, album.Name()), true)` and invokes its
`Play` with resume pattern `""`.  The ok value records each constructed
album paired with the resume pattern passed to its `Play`. -/
def artistPlay (a : artistM) (r : Nat → Nat) (albums : List FileInfo)
    (start : List Char) : Except (List Char) (List (albumM × List Char)) :=
  (doPerAlbum r albums start).map
    (fun l => l.map (fun al => ((⟨joinPath a.path al.name, true⟩ : albumM), ([] : List Char))))

/-- Go `filepath.Ext` scanned over a reversed rune list: walk from the end,
stop at a path separator, return the suffix from the last dot.  `acc`
holds the runes already walked past, restored to their original order. -/
def extAux : List Char → List Char → List Char
  | [], _ => []
  | c :: rest, acc => if c = '/' then [] else if c = '.' then c :: acc else extAux rest (c :: acc)

/-- Go `filepath.Ext`. -/
def ext (s : List Char) : List Char := extAux s.reverse []

/-- Embeds `trimExt` from locate.go: `s[0 : len(s)-len(filepath.Ext(s))]`. -/
def trimExt (s : List Char) : List Char := s.take (s.length - (ext s).length)

/-- The file component of `filepath.Split`: everything after the last
separator. -/
def lastComp (s : List Char) : List Char :=
  (s.reverse.takeWhile (fun c => c ≠ '/')).reverse

/-- The track announcement built in `album.Play` when `tracks` is set:
`trimExt(song.Name())`, prefixed by the album directory name and a slash
when `showName` is true. -/
def announceName (a : albumM) (song : FileInfo) : List Char :=
  let n := trimExt song.name
  if a.showName then lastComp a.path ++ '/' :: n else n

/-- The match score of the `j`-th entry of a list (as scanned by `find`). -/
def score (pattern : List Char) (l : List FileInfo) (j : Nat) : Int :=
  matchScore pattern ((l.getD j default).name)

/-! ## Matcher lemmas -/

theorem containsSub_iff (s pat : List Char) : containsSub s pat = true ↔ pat <:+: s := by
  induction s with
  | nil => simp [containsSub, List.isEmpty_iff, List.infix_nil]
  | cons c t ih =>
    simp only [containsSub, Bool.or_eq_true, ih, List.infix_cons_iff,
      List.isPrefixOf_iff_prefix]

theorem utf8Len_append (a b : List Char) : utf8Len (a ++ b) = utf8Len a + utf8Len b := by
  simp [utf8Len]

theorem utf8Len_eq_zero {l : List Char} : utf8Len l = 0 ↔ l = [] := by
  cases l with
  | nil => simp [utf8Len]
  | cons c t =>
    simp only [utf8Len, List.map_cons, List.sum_cons]
    have := Char.utf8Size_pos c
    constructor
    · intro h; omega
    · intro h; cases h

theorem utf8Len_le_substring {a b : List Char} (h : a <:+: b) : utf8Len a ≤ utf8Len b := by
  obtain ⟨s, t, rfl⟩ := h
  rw [utf8Len_append, utf8Len_append]
  omega

theorem eq_of_infix_of_utf8Len_eq {a b : List Char} (h : a <:+: b)
    (hl : utf8Len a = utf8Len b) : a = b := by
  obtain ⟨s, t, rfl⟩ := h
  rw [utf8Len_append, utf8Len_append] at hl
  have hs : s = [] := utf8Len_eq_zero.mp (by omega)
  have ht : t = [] := utf8Len_eq_zero.mp (by omega)
  subst hs; subst ht; simp

theorem matchScore_of_contains {p s : List Char} (h : normalizeStr p <:+: normalizeStr s) :
    matchScore p s = (utf8Len (normalizeStr s) : Int) - (utf8Len (normalizeStr p) : Int) := by
  have hle := utf8Len_le_substring h
  simp only [matchScore]
  rw [if_pos ((containsSub_iff _ _).mpr h), if_neg (by omega)]

theorem matchScore_of_not_contains {p s : List Char} (h : ¬ normalizeStr p <:+: normalizeStr s) :
    matchScore p s = -1 := by
  simp only [matchScore]
  rw [if_neg (by simpa [containsSub_iff] using h)]

/-- C2: `match(P,S)` is non-negative iff `normalize(S)` contains
`normalize(P)` as a substring (normalize = lowercase then strip every rune
that is not a letter, digit or whitespace), and is the `-1` no-match
sentinel otherwise; on a match the score is the absolute difference of the
normalized lengths, and it is `0` exactly when the normalized strings are
equal. -/
theorem c2_match_score_spec (p s : List Char) :
    (0 ≤ matchScore p s ↔ normalizeStr p <:+: normalizeStr s)
    ∧ (¬ normalizeStr p <:+: normalizeStr s → matchScore p s = -1)
    ∧ (normalizeStr p <:+: normalizeStr s →
        matchScore p s =
          |(utf8Len (normalizeStr s) : Int) - (utf8Len (normalizeStr p) : Int)|)
    ∧ (matchScore p s = 0 ↔ normalizeStr s = normalizeStr p) := by
  refine ⟨⟨?_, ?_⟩, matchScore_of_not_contains, ?_, ⟨?_, ?_⟩⟩
  · intro h0
    by_contra hc
    rw [matchScore_of_not_contains hc] at h0
    omega
  · intro h
    have hle := utf8Len_le_substring h
    rw [matchScore_of_contains h]
    omega
  · intro h
    have hle := utf8Len_le_substring h
    rw [matchScore_of_contains h, abs_of_nonneg (by omega)]
  · intro h0
    by_cases hc : normalizeStr p <:+: normalizeStr s
    · rw [matchScore_of_contains hc] at h0
      exact (eq_of_infix_of_utf8Len_eq hc (by omega)).symm
    · rw [matchScore_of_not_contains hc] at h0
      omega
  · intro heq
    have hc : normalizeStr p <:+: normalizeStr s := heq ▸ List.infix_refl _
    rw [matchScore_of_contains hc, heq]
    omega

/-- Witness for C2 at the spec's fixture: pattern "bob dylan" against
"Bob Dylan & The Band" matches with score 10, the difference of the
normalized lengths 19 and 9. -/
theorem c2_match_score_spec_witness :
    matchScore ("bob dylan".toList) ("Bob Dylan & The Band".toList) =
      |(utf8Len (normalizeStr ("Bob Dylan & The Band".toList)) : Int) -
        (utf8Len (normalizeStr ("bob dylan".toList)) : Int)| :=
  (c2_match_score_spec ("bob dylan".toList) ("Bob Dylan & The Band".toList)).2.2.1
    (by decide)

theorem clean_eq_filter (s : List Char) : clean s = s.filter isKept := by
  induction s with
  | nil => rfl
  | cons c t ih => by_cases h : isKept c <;> simp [clean, List.filter_cons, h, ih]

/-- C10: `clean` keeps exactly the letter, digit and whitespace runes in
their original order (a filter), so whitespace runs are preserved
verbatim: the cleaned "Bob Dylan & The Band" carries two consecutive
spaces, and the single-spaced pattern "bob dylan the band" does not match
that candidate. -/
theorem c10_clean_preserves_whitespace :
    (∀ s : List Char, clean s = s.filter isKept)
    ∧ clean ("Bob Dylan & The Band".toList) = ("Bob Dylan  The Band").toList
    ∧ matchScore ("bob dylan the band".toList) ("Bob Dylan & The Band".toList) = -1 :=
  ⟨clean_eq_filter, by decide, by decide⟩

/-! ## Selector lemmas -/

theorem score_cons_zero (pattern : List Char) (f : FileInfo) (t : List FileInfo) :
    score pattern (f :: t) 0 = matchScore pattern f.name := by
  simp [score]

theorem score_cons_succ (pattern : List Char) (f : FileInfo) (t : List FileInfo) (j : Nat) :
    score pattern (f :: t) (j + 1) = score pattern t j := by
  simp [score]

/-- Scan invariant of `findLoop`: either no entry beats `best` and the
accumulator `loc` is returned, or the result is `i + j` for the earliest
minimizing position `j` whose score beats `best`. -/
theorem findLoop_spec (pattern : List Char) (rest : List FileInfo) :
    ∀ (i : Nat) (best loc : Int),
      (findLoop pattern rest i best loc = loc ∧
        ∀ j, j < rest.length → 0 ≤ score pattern rest j → best ≤ score pattern rest j)
      ∨ (∃ j, j < rest.length ∧ findLoop pattern rest i best loc = ((i + j : Nat) : Int) ∧
          0 ≤ score pattern rest j ∧ score pattern rest j < best ∧
          (∀ j', j' < rest.length → 0 ≤ score pattern rest j' →
            score pattern rest j ≤ score pattern rest j') ∧
          (∀ j', j' < j → 0 ≤ score pattern rest j' →
            score pattern rest j < score pattern rest j')) := by
  induction rest with
  | nil =>
    intro i best loc
    left
    exact ⟨rfl, by intro j hj; simp at hj⟩
  | cons f t ih =>
    intro i best loc
    by_cases hm : matchScore pattern f.name < 0
    · have hstep : findLoop pattern (f :: t) i best loc = findLoop pattern t (i + 1) best loc := by
        simp [findLoop, hm]
      rcases ih (i + 1) best loc with ⟨heq, hall⟩ | ⟨j, hj, heq, h0, hb, hmin, hearly⟩
      · left
        refine ⟨hstep.trans heq, ?_⟩
        intro j hj hge
        cases j with
        | zero => simp only [score_cons_zero] at hge; omega
        | succ j' =>
          simp only [score_cons_succ] at hge ⊢
          exact hall j' (by simpa using hj) hge
      · right
        refine ⟨j + 1, by simpa using hj, ?_, ?_, ?_, ?_, ?_⟩
        · rw [hstep, heq]; congr 1; omega
        · simpa only [score_cons_succ] using h0
        · simpa only [score_cons_succ] using hb
        · intro j' hj' hge
          cases j' with
          | zero => simp only [score_cons_zero] at hge; omega
          | succ j'' =>
            simp only [score_cons_succ] at hge ⊢
            exact hmin j'' (by simpa using hj') hge
        · intro j' hj' hge
          cases j' with
          | zero => simp only [score_cons_zero] at hge; omega
          | succ j'' =>
            simp only [score_cons_succ] at hge ⊢
            exact hearly j'' (by omega) hge
    · by_cases hbest : matchScore pattern f.name < best
      · have hstep : findLoop pattern (f :: t) i best loc =
            findLoop pattern t (i + 1) (matchScore pattern f.name) (i : Int) := by
          simp [findLoop, hm, hbest]
        rcases ih (i + 1) (matchScore pattern f.name) (i : Int) with
          ⟨heq, hall⟩ | ⟨j, hj, heq, h0, hb, hmin, hearly⟩
        · right
          refine ⟨0, by simp, ?_, ?_, ?_, ?_, ?_⟩
          · rw [hstep, heq]; congr 1
          · simp only [score_cons_zero]; omega
          · simpa only [score_cons_zero] using hbest
          · intro j' hj' hge
            cases j' with
            | zero => simp only [score_cons_zero]; exact le_rfl
            | succ j'' =>
              simp only [score_cons_zero, score_cons_succ] at hge ⊢
              exact hall j'' (by simpa using hj') hge
          · intro j' hj'; omega
        · right
          refine ⟨j + 1, by simpa using hj, ?_, ?_, ?_, ?_, ?_⟩
          · rw [hstep, heq]; congr 1; omega
          · simpa only [score_cons_succ] using h0
          · simp only [score_cons_succ]; omega
          · intro j' hj' hge
            cases j' with
            | zero =>
              simp only [score_cons_zero] at hge
              simp only [score_cons_succ, score_cons_zero]
              omega
            | succ j'' =>
              simp only [score_cons_succ] at hge ⊢
              exact hmin j'' (by simpa using hj') hge
          · intro j' hj' hge
            cases j' with
            | zero =>
              simp only [score_cons_zero] at hge
              simp only [score_cons_succ, score_cons_zero]
              omega
            | succ j'' =>
              simp only [score_cons_succ] at hge ⊢
              exact hearly j'' (by omega) hge
      · have hstep : findLoop pattern (f :: t) i best loc = findLoop pattern t (i + 1) best loc := by
          simp [findLoop, hm, hbest]
        rcases ih (i + 1) best loc with ⟨heq, hall⟩ | ⟨j, hj, heq, h0, hb, hmin, hearly⟩
        · left
          refine ⟨hstep.trans heq, ?_⟩
          intro j hj hge
          cases j with
          | zero => simp only [score_cons_zero]; omega
          | succ j' =>
            simp only [score_cons_succ] at hge ⊢
            exact hall j' (by simpa using hj) hge
        · right
          refine ⟨j + 1, by simpa using hj, ?_, ?_, ?_, ?_, ?_⟩
          · rw [hstep, heq]; congr 1; omega
          · simpa only [score_cons_succ] using h0
          · simpa only [score_cons_succ] using hb
          · intro j' hj' hge
            cases j' with
            | zero =>
              simp only [score_cons_zero] at hge
              simp only [score_cons_succ, score_cons_zero]
              omega
            | succ j'' =>
              simp only [score_cons_succ] at hge ⊢
              exact hmin j'' (by simpa using hj') hge
          · intro j' hj' hge
            cases j' with
            | zero =>
              simp only [score_cons_zero] at hge
              simp only [score_cons_succ, score_cons_zero]
              omega
            | succ j'' =>
              simp only [score_cons_succ] at hge ⊢
              exact hearly j'' (by omega) hge

theorem find_of_ne_nil {fi : List FileInfo} {pattern : List Char} (hp : pattern ≠ []) :
    find fi pattern = findLoop pattern fi 0 9999 (-1) := by
  simp only [find]
  rw [if_neg (by simpa [List.isEmpty_iff] using hp)]

/-- C3 (amended): with a non-empty pattern, `find` returns the failure
sentinel `-1` iff no entry has a non-sentinel score *below the initial
best of 9999*; whenever some entry's score lies in `[0, 9999)`, `find`
returns the index of an entry with the lowest non-sentinel score, ties
resolved to the earliest index scanned. -/
theorem c3_find_selection (fi : List FileInfo) (pattern : List Char) (hp : pattern ≠ []) :
    (find fi pattern = -1 ↔
      ∀ j, j < fi.length → ¬ (0 ≤ score pattern fi j ∧ score pattern fi j < 9999))
    ∧ (∀ k : Nat, find fi pattern = (k : Int) →
        k < fi.length ∧ 0 ≤ score pattern fi k ∧ score pattern fi k < 9999 ∧
        (∀ j, j < fi.length → 0 ≤ score pattern fi j →
          score pattern fi k ≤ score pattern fi j) ∧
        (∀ j, j < k → 0 ≤ score pattern fi j →
          score pattern fi k < score pattern fi j)) := by
  have hfind : find fi pattern = findLoop pattern fi 0 9999 (-1) := find_of_ne_nil hp
  rcases findLoop_spec pattern fi 0 9999 (-1) with ⟨heq, hall⟩ | ⟨j, hj, heq, h0, hb, hmin, hearly⟩
  · constructor
    · rw [hfind, heq]
      constructor
      · intro _ j hjl hcon
        have := hall j hjl hcon.1
        omega
      · intro _; rfl
    · intro k hk
      rw [hfind, heq] at hk
      omega
  · constructor
    · rw [hfind, heq]
      constructor
      · intro habs; omega
      · intro hforall
        exact absurd ⟨h0, by omega⟩ (hforall j hj)
    · intro k hk
      rw [hfind, heq] at hk
      have hkj : k = j := by omega
      subst hkj
      exact ⟨hj, h0, by omega, hmin, hearly⟩

/-- Witness for C3 (amended) at a one-entry list whose name does not match
the pattern: `find` returns the sentinel. -/
theorem c3_find_selection_witness :
    find [⟨['x'], false⟩] ['z'] = -1 :=
  (c3_find_selection [⟨['x'], false⟩] ['z'] (by decide)).1.mpr (by decide)

/-- C3 counterexample to the claim as stated: the 10000-rune name
`aaa…a` has the non-sentinel score 9999 against pattern "a", yet `find`
returns the failure sentinel, because a score must beat the initial best
of 9999 strictly to be recorded. -/
theorem c3_counterexample :
    matchScore ['a'] (List.replicate 10000 'a') = 9999 ∧
    find [⟨List.replicate 10000 'a', false⟩] ['a'] = -1 := by
  have hnorm : normalizeStr (List.replicate 10000 'a') = List.replicate 10000 'a' := by
    unfold normalizeStr toLowerStr
    rw [List.map_replicate]
    have hlow : Char.toLower 'a' = 'a' := rfl
    rw [hlow, clean_eq_filter, List.filter_replicate]
    rw [if_pos (show isKept 'a' = true from rfl)]
  have hlen : utf8Len (List.replicate 10000 'a') = 10000 := by
    rw [utf8Len, List.map_replicate, List.sum_replicate]
    have h : Char.utf8Size 'a' = 1 := rfl
    rw [h, smul_eq_mul, mul_one]
  have hscore : matchScore ['a'] (List.replicate 10000 'a') = 9999 := by
    have hca : containsSub (List.replicate 10000 'a') ['a'] = true := by decide
    have hp1 : normalizeStr ['a'] = ['a'] := rfl
    have h1 : utf8Len ['a'] = 1 := rfl
    simp only [matchScore, hnorm, hp1, hca, if_true, hlen, h1]
    norm_num
  refine ⟨hscore, ?_⟩
  rw [find_of_ne_nil (by decide)]
  simp only [findLoop, hscore]
  norm_num

/-- C5 (amended): except in the corner case of an empty entry list with an
empty pattern, `find` returns either the failure sentinel or an in-range
index; an empty pattern always maps to index 0, and on a non-empty entry
list `find entries ""` returns 0 (then in range). -/
theorem c5_find_range (fi : List FileInfo) (pattern : List Char) :
    (pattern = [] → find fi pattern = 0)
    ∧ (fi ≠ [] → find fi [] = 0 ∧ (0 : Int) < (fi.length : Int))
    ∧ (fi ≠ [] ∨ pattern ≠ [] →
        find fi pattern = -1 ∨
          (0 ≤ find fi pattern ∧ find fi pattern < (fi.length : Int))) := by
  have hempty : find fi [] = 0 := by simp [find]
  refine ⟨?_, ?_, ?_⟩
  · intro h; subst h; exact hempty
  · intro hfi
    refine ⟨hempty, ?_⟩
    cases fi with
    | nil => exact absurd rfl hfi
    | cons f t => simp
  · intro hor
    by_cases hp : pattern = []
    · subst hp
      rcases hor with hfi | hps
      · right
        rw [hempty]
        refine ⟨le_rfl, ?_⟩
        cases fi with
        | nil => exact absurd rfl hfi
        | cons f t => simp
      · exact absurd rfl hps
    · rw [find_of_ne_nil hp]
      rcases findLoop_spec pattern fi 0 9999 (-1) with ⟨heq, _⟩ | ⟨j, hj, heq, _⟩
      · left; exact heq
      · right
        rw [heq]
        constructor
        · positivity
        · simp only [Nat.cast_lt]
          omega

/-- Witness for C5 (amended): a one-entry list with a non-matching pattern
gives the sentinel. -/
theorem c5_find_range_witness :
    find [⟨['x'], false⟩] ['z'] = -1 ∨
      (0 ≤ find [⟨['x'], false⟩] ['z'] ∧
        find [⟨['x'], false⟩] ['z'] < (([⟨['x'], false⟩] : List FileInfo).length : Int)) :=
  (c5_find_range [⟨['x'], false⟩] ['z']).2.2 (Or.inl (by decide))

/-- C5 counterexample to the claim as stated: on an empty entry list with
the empty pattern, `find` returns 0, which is neither the failure sentinel
nor an in-range index. -/
theorem c5_counterexample :
    find [] [] = 0 ∧ (0 : Int) ≠ -1 ∧
      ¬ ((0 : Int) < (([] : List FileInfo).length : Int)) := by
  refine ⟨by rfl, by decide, by decide⟩

/-- With a non-empty pattern that matches no entry, `find` returns the
sentinel. -/
theorem find_eq_neg_one_of_no_match {l : List FileInfo} {pattern : List Char}
    (hp : pattern ≠ []) (h : ∀ f ∈ l, matchScore pattern f.name < 0) :
    find l pattern = -1 := by
  rw [find_of_ne_nil hp]
  rcases findLoop_spec pattern l 0 9999 (-1) with ⟨heq, _⟩ | ⟨j, hj, _, h0, _⟩
  · exact heq
  · exfalso
    have hmem : l.getD j default ∈ l := by
      rw [List.getD_eq_getElem l default hj]
      exact List.getElem_mem hj
    have := h _ hmem
    simp only [score] at h0
    omega

/-! ## Shuffle lemmas -/

theorem cons_set_perm (a : FileInfo) :
    ∀ (l : List FileInfo) (m : Nat), m < l.length →
      (l.getD m default :: l.set m a).Perm (a :: l) := by
  intro l
  induction l with
  | nil => intro m hm; simp at hm
  | cons b t ih =>
    intro m hm
    cases m with
    | zero =>
      simp only [List.getD_cons_zero, List.set_cons_zero]
      exact List.Perm.swap a b t
    | succ m' =>
      simp only [List.getD_cons_succ, List.set_cons_succ]
      have h' : m' < t.length := by simpa using hm
      exact ((List.Perm.swap _ _ _).trans
        (List.Perm.cons b (ih m' h'))).trans (List.Perm.swap _ _ _)

theorem swapAt_perm : ∀ (l : List FileInfo) (i n : Nat), i < l.length → n < l.length →
    (swapAt l i n).Perm l := by
  intro l
  induction l with
  | nil => intro i n hi _; simp at hi
  | cons a t ih =>
    intro i n hi hn
    cases i with
    | zero =>
      cases n with
      | zero => simp [swapAt]
      | succ n' =>
        have hn' : n' < t.length := by simpa using hn
        simp only [swapAt, List.getD_cons_zero, List.getD_cons_succ, List.set_cons_zero,
          List.set_cons_succ]
        exact cons_set_perm a t n' hn'
    | succ i' =>
      cases n with
      | zero =>
        have hi' : i' < t.length := by simpa using hi
        simp only [swapAt, List.getD_cons_zero, List.getD_cons_succ, List.set_cons_zero,
          List.set_cons_succ]
        exact cons_set_perm a t i' hi'
      | succ n' =>
        have hi' : i' < t.length := by simpa using hi
        have hn' : n' < t.length := by simpa using hn
        simp only [swapAt, List.getD_cons_succ, List.set_cons_succ]
        exact List.Perm.cons a (ih i' n' hi' hn')

theorem swapAt_length (l : List FileInfo) (i n : Nat) :
    (swapAt l i n).length = l.length := by
  simp [swapAt]

theorem shuffleAux_perm (r : Nat → Nat) (len : Nat) :
    ∀ (fuel i : Nat) (l : List FileInfo), len ≤ l.length →
      (shuffleAux r len fuel i l).Perm l := by
  intro fuel
  induction fuel with
  | zero => intro i l _; simp [shuffleAux]
  | succ fuel ih =>
    intro i l hlen
    simp only [shuffleAux]
    by_cases hi : i < len
    · rw [if_pos hi]
      have hn : intnRange (r i) i len < len := by
        unfold intnRange
        have := @Nat.mod_lt (r i) (len - i) (by omega)
        omega
      have hswap := swapAt_perm l i (intnRange (r i) i len) (by omega) (by omega)
      have hrec := ih (i + 1) (swapAt l i (intnRange (r i) i len))
        (by rw [swapAt_length]; exact hlen)
      exact hrec.trans hswap
    · rw [if_neg hi]

theorem shuffle_perm (r : Nat → Nat) (l : List FileInfo) : (shuffle r l).Perm l :=
  shuffleAux_perm r l.length l.length 0 l le_rfl

/-- C6: the artist-level Fisher–Yates pass is a permutation: for every
input list and every random source the multiset of elements is unchanged
and so is the length.  The shuffle reads only the list and the random
draws — its arguments contain no start pattern — so it is independent of
the resume pattern by construction. -/
theorem c6_shuffle_is_permutation (r : Nat → Nat) (l : List FileInfo) :
    ((shuffle r l : List FileInfo) : Multiset FileInfo) = (l : Multiset FileInfo)
    ∧ (shuffle r l).length = l.length :=
  ⟨Multiset.coe_eq_coe.mpr (shuffle_perm r l), (shuffle_perm r l).length_eq⟩

/-! ## Sequencer and locator theorems -/

/-- C4: a non-empty resume pattern that matches no entry (in particular on
an empty listing) makes both `doPerAlbum` and `doPerSong` fail the whole
call with the error message naming the pattern; no entry reaches the
per-entry callback (the ok list is never produced) and no fallback to
index 0 happens. -/
theorem c4_resume_not_found (r : Nat → Nat) (albums songs : List FileInfo)
    (start : List Char) (hne : start ≠ [])
    (hA : ∀ f ∈ albums, matchScore start f.name < 0)
    (hS : ∀ f ∈ songs, matchScore start f.name < 0) :
    doPerAlbum r albums start = Except.error (albumErrMsg start)
    ∧ doPerSong songs start = Except.error (songErrMsg start)
    ∧ start <:+: albumErrMsg start
    ∧ start <:+: songErrMsg start := by
  have hshuf : ∀ f ∈ shuffle r albums, matchScore start f.name < 0 := by
    intro f hf
    exact hA f ((shuffle_perm r albums).mem_iff.mp hf)
  have hfA : find (shuffle r albums) start = -1 := find_eq_neg_one_of_no_match hne hshuf
  have hfS : find songs start = -1 := find_eq_neg_one_of_no_match hne hS
  refine ⟨?_, ?_, ?_, ?_⟩
  · simp only [doPerAlbum, hfA]
    rw [if_pos (by omega)]
  · simp only [doPerSong, hfS]
    rw [if_pos (by omega)]
  · exact ⟨"I failed to find an album matching this pattern: ".toList ++ ['"'], ['"'],
      by simp [albumErrMsg, quoted]⟩
  · exact ⟨"I failed to find a song matching this pattern: ".toList ++ ['"'], ['"'],
      by simp [songErrMsg, quoted]⟩

/-- Witness for C4 at the spec's scenario: empty directory listings and
the non-empty resume pattern "b". -/
theorem c4_resume_not_found_witness :
    doPerAlbum (fun _ => 0) [] ['b'] = Except.error (albumErrMsg ['b'])
    ∧ doPerSong [] ['b'] = Except.error (songErrMsg ['b'])
    ∧ ['b'] <:+: albumErrMsg ['b']
    ∧ ['b'] <:+: songErrMsg ['b'] :=
  c4_resume_not_found (fun _ => 0) [] [] ['b'] (by decide) (by simp) (by simp)

/-- C1 (amended): when the Selector resolves the resume pattern to index
`k`, `doPerAlbum` left-rotates the (shuffled) album list at `k` — the
element at `k` comes first and the rotation is a permutation of the whole
list — but `doPerSong` instead iterates only the suffix `songs[k:]`,
dropping the entries before `k`. -/
theorem c1_rotation (r : Nat → Nat) (albums songs : List FileInfo)
    (start : List Char) (k : Nat)
    (hA : find (shuffle r albums) start = (k : Int))
    (hS : find songs start = (k : Int)) :
    doPerAlbum r albums start = Except.ok (rotateAt (shuffle r albums) k)
    ∧ (rotateAt (shuffle r albums) k).Perm (shuffle r albums)
    ∧ (k < (shuffle r albums).length →
        (rotateAt (shuffle r albums) k).head? = (shuffle r albums)[k]?)
    ∧ doPerSong songs start = Except.ok (songs.drop k) := by
  refine ⟨?_, ?_, ?_, ?_⟩
  · simp only [doPerAlbum, hA]
    rw [if_neg (by omega), Int.toNat_natCast]
    rfl
  · have h1 : ((shuffle r albums).drop k ++ (shuffle r albums).take k).Perm
        ((shuffle r albums).take k ++ (shuffle r albums).drop k) := List.perm_append_comm
    rw [List.take_append_drop] at h1
    exact h1
  · intro hk
    show ((shuffle r albums).drop k ++ (shuffle r albums).take k).head? = _
    rw [List.head?_append, List.head?_drop, List.getElem?_eq_getElem hk]
    rfl
  · simp only [doPerSong, hS]
    rw [if_neg (by omega), Int.toNat_natCast]

/-- Witness for C1 (amended): albums = songs = [a, b], resume "b",
index 1 (the identity random source keeps the list order). -/
theorem c1_rotation_witness :
    doPerAlbum (fun _ => 0) [⟨['a'], false⟩, ⟨['b'], false⟩] ['b'] =
      Except.ok (rotateAt (shuffle (fun _ => 0) [⟨['a'], false⟩, ⟨['b'], false⟩]) 1) :=
  (c1_rotation (fun _ => 0) [⟨['a'], false⟩, ⟨['b'], false⟩]
    [⟨['a'], false⟩, ⟨['b'], false⟩] ['b'] 1 (by decide) (by decide)).1

/-- C1 counterexample to the claim as stated: with songs [a, b] and resume
pattern "b" (selected index 1), `doPerSong` hands only `[b]` to the
callback — the entry `a`, which a left-rotation would append after the
tail, is dropped and never processed. -/
theorem c1_counterexample :
    doPerSong [⟨['a'], false⟩, ⟨['b'], false⟩] ['b'] = Except.ok [⟨['b'], false⟩]
    ∧ (⟨['a'], false⟩ : FileInfo) ∉ [(⟨['b'], false⟩ : FileInfo)] :=
  ⟨by decide, by decide⟩

/-- C7: when the directory listing succeeds but the Selector matches no
artist, `LocateArtist` returns ok `none` (nil Music, nil error); an I/O
failure is instead propagated as an error. -/
theorem c7_locate_artist_not_found (mloc pattern : List Char) :
    (∀ as : List FileInfo, find as pattern < 0 →
        LocateArtist mloc (Except.ok as) pattern = Except.ok none)
    ∧ (∀ e : List Char, LocateArtist mloc (Except.error e) pattern = Except.error e) := by
  constructor
  · intro as h
    simp only [LocateArtist]
    rw [if_pos h]
  · intro e
    rfl

/-- Witness for C7: an empty artist listing with a non-empty pattern. -/
theorem c7_locate_artist_not_found_witness :
    LocateArtist ['m'] (Except.ok []) ['b'] = Except.ok none :=
  (c7_locate_artist_not_found ['m'] ['b']).1 [] (by decide)

/-- C8: the display-name flag: every album returned by `LocateAlbum`
carries `showName = false`, every album constructed in the artist→album
auto-play path carries `showName = true`, and a false flag means the
track announcement is the bare track name without the album prefix. -/
theorem c8_show_name_flag (mloc : List Char) (tree : List (FileInfo × List FileInfo))
    (pattern : List Char) (a : artistM) (r : Nat → Nat) (albums : List FileInfo)
    (start : List Char) :
    (∀ al : albumM, LocateAlbum mloc tree pattern = some al → al.showName = false)
    ∧ (∀ res, artistPlay a r albums start = Except.ok res →
        ∀ x ∈ res, x.1.showName = true)
    ∧ (∀ (al : albumM) (song : FileInfo), al.showName = false →
        announceName al song = trimExt song.name) := by
  refine ⟨?_, ?_, ?_⟩
  · intro al h
    simp only [LocateAlbum] at h
    by_cases hneg : find ((tree.map Prod.snd).flatten) pattern < 0
    · rw [if_pos hneg] at h
      cases h
    · rw [if_neg hneg] at h
      have := Option.some.inj h
      rw [← this]
  · intro res h x hx
    simp only [artistPlay] at h
    cases hdp : doPerAlbum r albums start with
    | error e =>
      rw [hdp] at h
      simp [Except.map] at h
    | ok l =>
      rw [hdp] at h
      simp only [Except.map] at h
      have hres := Except.ok.inj h
      rw [← hres] at hx
      simp only [List.mem_map] at hx
      obtain ⟨y, _, rfl⟩ := hx
      rfl
  · intro al song h
    simp [announceName, h]

/-- Witness for C8: a located album with the flag off, an auto-play album
with the flag on, and the resulting bare announcement. -/
theorem c8_show_name_flag_witness :
    albumM.showName ⟨"/m/A/X".toList, false⟩ = false
    ∧ albumM.showName ⟨"/m/A/x".toList, true⟩ = true
    ∧ announceName ⟨"/m/Artist/Alb".toList, false⟩ ⟨"song.mp3".toList, false⟩ =
        trimExt ("song.mp3".toList) := by
  refine ⟨?_, ?_, ?_⟩
  · exact (c8_show_name_flag ("/m".toList) [(⟨['A'], true⟩, [⟨['X'], true⟩])] ['x']
      ⟨"/m/A".toList⟩ (fun _ => 0) [⟨['x'], true⟩] []).1 ⟨"/m/A/X".toList, false⟩ (by decide)
  · exact (c8_show_name_flag ("/m".toList) [(⟨['A'], true⟩, [⟨['X'], true⟩])] ['x']
      ⟨"/m/A".toList⟩ (fun _ => 0) [⟨['x'], true⟩] []).2.1
      [(⟨"/m/A/x".toList, true⟩, [])] (by decide) (⟨"/m/A/x".toList, true⟩, []) (by decide)
  · exact (c8_show_name_flag ("/m".toList) [(⟨['A'], true⟩, [⟨['X'], true⟩])] ['x']
      ⟨"/m/A".toList⟩ (fun _ => 0) [⟨['x'], true⟩] []).2.2 ⟨"/m/Artist/Alb".toList, false⟩
      ⟨"song.mp3".toList, false⟩ rfl

/-- C9: at artist level the resume pattern only selects the starting
album: every nested album `Play` is invoked with the empty resume pattern,
and `doPerSong` with an empty pattern starts at track 0 and hands every
track to the callback in order. -/
theorem c9_nested_play_empty_resume (a : artistM) (r : Nat → Nat)
    (albums : List FileInfo) (start : List Char) :
    (∀ res, artistPlay a r albums start = Except.ok res →
        ∀ x ∈ res, x.2 = ([] : List Char))
    ∧ (∀ songs : List FileInfo, doPerSong songs [] = Except.ok songs) := by
  constructor
  · intro res h x hx
    simp only [artistPlay] at h
    cases hdp : doPerAlbum r albums start with
    | error e =>
      rw [hdp] at h
      simp [Except.map] at h
    | ok l =>
      rw [hdp] at h
      simp only [Except.map] at h
      have hres := Except.ok.inj h
      rw [← hres] at hx
      simp only [List.mem_map] at hx
      obtain ⟨y, _, rfl⟩ := hx
      rfl
  · intro songs
    have h0 : find songs [] = 0 := by simp [find]
    simp only [doPerSong, h0]
    rw [if_neg (by omega)]
    simp

/-- Witness for C9: a one-album artist played with resume pattern "x"
invokes the album with the empty pattern, and an album played with the
empty pattern yields all of its (one) tracks. -/
theorem c9_nested_play_empty_resume_witness :
    ((⟨"/m/A/x".toList, true⟩ : albumM), ([] : List Char)).2 = ([] : List Char)
    ∧ doPerSong [⟨['s'], false⟩] [] = Except.ok [⟨['s'], false⟩] :=
  ⟨(c9_nested_play_empty_resume ⟨"/m/A".toList⟩ (fun _ => 0) [⟨['x'], true⟩] ['x']).1
      [(⟨"/m/A/x".toList, true⟩, [])] (by decide) (⟨"/m/A/x".toList, true⟩, []) (by decide),
   (c9_nested_play_empty_resume ⟨"/m/A".toList⟩ (fun _ => 0) [⟨['x'], true⟩] ['x']).2
      [⟨['s'], false⟩]⟩
